import Mathlib

/-!
# A verification development for the ProjectLens file-selection engine

The repository's Python package exposes a `ProjectLens` class that walks a
directory tree, selects files by extension / include / exclude rules, applies
an optional size ceiling, accumulates `ProjectMetadata`, and renders an ASCII
tree.  The core module is not part of the provided sources (only the package
init and the test suite are), so the engine below is modelled from the
specification document, component by component.  Paths are joined with `"/"`
as the separator; byte strings are Lean `String`s and character-level
operations (lowering, upper-casing) use the ASCII maps of `Char`.
-/

/-! ## Character-level helpers -/

/-- Auxiliary: `Char.ofNat` of a scalar value below the surrogate range
keeps its numeric value. -/
theorem char_toNat_ofNat_of_lt {n : Nat} (h : n < 55296) :
    (Char.ofNat n).toNat = n := by
  have hv : n.isValidChar := Or.inl h
  rw [Char.ofNat, dif_pos hv]
  simp [Char.ofNatAux, Char.toNat, UInt32.toNat]

/-- Lowering after upper-casing agrees with plain lowering (ASCII maps). -/
theorem char_toLower_toUpper (c : Char) :
    Char.toLower (Char.toUpper c) = Char.toLower c := by
  unfold Char.toUpper
  by_cases h : c.toNat ≥ 97 ∧ c.toNat ≤ 122
  · rw [if_pos h]
    have hlt : c.toNat - 32 < 55296 := by omega
    have hval : (Char.ofNat (c.toNat - 32)).toNat = c.toNat - 32 :=
      char_toNat_ofNat_of_lt hlt
    unfold Char.toLower
    rw [hval]
    have h1 : c.toNat - 32 ≥ 65 ∧ c.toNat - 32 ≤ 90 := by omega
    rw [if_pos h1, if_neg (by omega)]
    have : c.toNat - 32 + 32 = c.toNat := by omega
    rw [this, Char.ofNat_toNat]
  · rw [if_neg h]

/-- Lowering is idempotent (ASCII maps). -/
theorem char_toLower_idem (c : Char) :
    Char.toLower (Char.toLower c) = Char.toLower c := by
  unfold Char.toLower
  by_cases h : c.toNat ≥ 65 ∧ c.toNat ≤ 90
  · rw [if_pos h]
    have hlt : c.toNat + 32 < 55296 := by omega
    have hval : (Char.ofNat (c.toNat + 32)).toNat = c.toNat + 32 :=
      char_toNat_ofNat_of_lt hlt
    rw [hval, if_neg (by omega)]
  · rw [if_neg h, if_neg h]

/-- Only the dot lowers to a dot. -/
theorem char_toLower_eq_dot {c : Char} (h : Char.toLower c = '.') : c = '.' := by
  unfold Char.toLower at h
  by_cases hc : c.toNat ≥ 65 ∧ c.toNat ≤ 90
  · rw [if_pos hc] at h
    have hlt : c.toNat + 32 < 55296 := by omega
    have hval : (Char.ofNat (c.toNat + 32)).toNat = c.toNat + 32 :=
      char_toNat_ofNat_of_lt hlt
    have h2 : (Char.ofNat (c.toNat + 32)).toNat = ('.' : Char).toNat := by rw [h]
    rw [hval] at h2
    have h3 : ('.' : Char).toNat = 46 := by decide
    omega
  · rwa [if_neg hc] at h

/-- Only the dot upper-cases to a dot. -/
theorem char_toUpper_eq_dot {c : Char} (h : Char.toUpper c = '.') : c = '.' := by
  unfold Char.toUpper at h
  by_cases hc : c.toNat ≥ 97 ∧ c.toNat ≤ 122
  · rw [if_pos hc] at h
    have hlt : c.toNat - 32 < 55296 := by omega
    have hval : (Char.ofNat (c.toNat - 32)).toNat = c.toNat - 32 :=
      char_toNat_ofNat_of_lt hlt
    have h2 : (Char.ofNat (c.toNat - 32)).toNat = ('.' : Char).toNat := by rw [h]
    rw [hval] at h2
    have h3 : ('.' : Char).toNat = 46 := by decide
    omega
  · rwa [if_neg hc] at h

/-! ## String-level helpers (models of the Python `str` operations used) -/

/-- Model of Python `str.lower()` restricted to ASCII letters. -/
def strLower (s : String) : String := ⟨s.data.map Char.toLower⟩

/-- Model of Python `str.upper()` restricted to ASCII letters
(used only to state the `EXT` / `.EXT` input forms). -/
def strUpper (s : String) : String := ⟨s.data.map Char.toUpper⟩

/-! ## Shell-style glob matching (model of Python `fnmatch`)

`*` matches any (possibly empty) run of characters, `?` matches exactly one
character, `[...]` matches one character from a class (with `!` negation,
`-` ranges, and a literal `]` allowed first); an unterminated `[` is a
literal character.  The matcher is written with an explicit fuel argument so
that it is structurally recursive and kernel-evaluable; the fuel supplied by
the wrapper is always sufficient because every step consumes at least one
character of the pattern or of the candidate string. -/

/-- Does character `c` belong to the (already extracted) class body?
Handles `a-z` ranges. -/
def charInClass (c : Char) : List Char → Bool
  | a :: '-' :: b :: rest => (a ≤ c && c ≤ b) || charInClass c rest
  | a :: rest => (a == c) || charInClass c rest
  | [] => false

/-- Scan forward to the closing `]` of a character class, returning the class
body and the remainder of the pattern. -/
def findClose : List Char → Option (List Char × List Char)
  | [] => none
  | ']' :: rest => some ([], rest)
  | c :: rest =>
    match findClose rest with
    | none => none
    | some (body, rem) => some (c :: body, rem)

/-- Split a pattern just after `[` into negation flag, class body, and
remainder.  A `]` directly after `[` (or after `[!`) is a literal member. -/
def splitClass (l : List Char) : Option (Bool × List Char × List Char) :=
  match l with
  | '!' :: ']' :: rest =>
    match findClose rest with
    | none => none
    | some (body, rem) => some (true, ']' :: body, rem)
  | '!' :: rest =>
    match findClose rest with
    | none => none
    | some (body, rem) => some (true, body, rem)
  | ']' :: rest =>
    match findClose rest with
    | none => none
    | some (body, rem) => some (false, ']' :: body, rem)
  | rest =>
    match findClose rest with
    | none => none
    | some (body, rem) => some (false, body, rem)

/-- Fuel-indexed glob matcher: does pattern `p` match string `s` entirely? -/
def globMatchAux : Nat → List Char → List Char → Bool
  | 0, _, _ => false
  | _ + 1, [], [] => true
  | _ + 1, [], _ :: _ => false
  | fuel + 1, '*' :: ps, s =>
    globMatchAux fuel ps s ||
      (match s with
       | [] => false
       | _ :: s' => globMatchAux fuel ('*' :: ps) s')
  | fuel + 1, '?' :: ps, s =>
    match s with
    | [] => false
    | _ :: s' => globMatchAux fuel ps s'
  | fuel + 1, '[' :: ps, s =>
    match splitClass ps with
    | some (neg, body, rem) =>
      match s with
      | [] => false
      | c :: s' => (neg != charInClass c body) && globMatchAux fuel rem s'
    | none =>
      match s with
      | [] => false
      | c :: s' => (c == '[') && globMatchAux fuel ps s'
  | fuel + 1, p :: ps, s =>
    match s with
    | [] => false
    | c :: s' => (p == c) && globMatchAux fuel ps s'

/-- Modelled from the spec: shell-style glob match of one pattern against one
name (the `fnmatch` collaborator of `PatternMatcher`). -/
def fnmatch (name pattern : String) : Bool :=
  globMatchAux (pattern.data.length + name.data.length + 1) pattern.data name.data

/-! ## Path strings -/

/-- Join path segments with the `/` separator (relative paths of the scan). -/
def pathStr : List String → String
  | [] => ""
  | [n] => n
  | n :: rest => n ++ "/" ++ pathStr rest

/-- Split a character list at `/` separators. -/
def splitSlash : List Char → List (List Char)
  | [] => [[]]
  | c :: rest =>
    if c = '/' then [] :: splitSlash rest
    else
      match splitSlash rest with
      | [] => [[c]]
      | h :: t => (c :: h) :: t

/-- The `/`-separated segments of a relative path. -/
def segmentsOf (path : String) : List String :=
  (splitSlash path.data).map (fun l => ⟨l⟩)

/-! ## PatternMatcher -/

namespace PatternMatcher

/-- Modelled from the spec: the `matches(name_or_path, patterns)` predicate
(named `isMatch` here because `matches` is reserved in Lean): true when
some pattern glob-matches the full path relative to the scan root, or any
individual path segment of it (which covers the bare file/directory name). -/
def isMatch (name_or_path : String) (patterns : List String) : Bool :=
  patterns.any (fun pat =>
    fnmatch name_or_path pat || (segmentsOf name_or_path).any (fun seg => fnmatch seg pat))

end PatternMatcher

/-! ## ExtensionFilter -/

/-- The characters after the last `.` of a name, or `none` when the name
contains no dot. -/
def lastDotSuffix : List Char → Option (List Char)
  | [] => none
  | c :: rest =>
    match lastDotSuffix rest with
    | some suffix => some suffix
    | none => if c = '.' then some rest else none

namespace ExtensionFilter

/-- Modelled from the spec: the `matches(filename)` predicate (named
`isMatch` here because `matches` is reserved in Lean): true when the suffix
after the last dot, lowercased, is a member of the normalized extension set;
names without a dot never match. -/
def isMatch (extensions : List String) (filename : String) : Bool :=
  match lastDotSuffix filename.data with
  | none => false
  | some suffix => extensions.contains ⟨suffix.map Char.toLower⟩

end ExtensionFilter

/-! ## SizeGuard -/

namespace SizeGuard

/-- Modelled from the spec: true when a ceiling is configured (in KB) and the
byte size exceeds it after conversion to bytes; an unconfigured guard never
fires. -/
def exceeds (max_file_size : Option Nat) (byte_size : Nat) : Bool :=
  match max_file_size with
  | none => false
  | some kb => decide (byte_size > kb * 1024)

end SizeGuard

/-! ## Configuration -/

/-- Modelled from the spec: normalization of one configured extension token —
leading dots stripped, then lowercased (the model of `ext.lstrip(".").lower()`). -/
def normalize_extension (s : String) : String :=
  ⟨(s.data.dropWhile (fun c => c == '.')).map Char.toLower⟩

/-- Modelled from the spec: the built-in directory names always merged into
the exclude set (version-control and bytecode-cache directories). -/
def default_excluded_dirs : List String := [".git", "__pycache__"]

/-- Modelled from the spec: the immutable configuration of a `ProjectLens`
instance after successful construction. -/
structure ProjectLens where
  /-- Normalized extension tokens (`extensions` constructor argument). -/
  extensions : List String
  /-- Forced-inclusion glob patterns (`include` constructor argument). -/
  include_patterns : List String
  /-- Exclusion glob patterns (`exclude` constructor argument). -/
  exclude_patterns : List String
  /-- Optional size ceiling in KB (`max_file_size` constructor argument). -/
  max_file_size : Option Nat
deriving DecidableEq, Repr

/-- Modelled from the spec: construction validates that `extensions` is
non-empty (raising a configuration error otherwise) and stores the
normalized extension tokens. -/
def mkProjectLens (extensions include_patterns exclude_patterns : List String)
    (max_file_size : Option Nat) : Except String ProjectLens :=
  if extensions.isEmpty then
    Except.error "extensions list cannot be empty"
  else
    Except.ok
      { extensions := extensions.map normalize_extension
        include_patterns := include_patterns
        exclude_patterns := exclude_patterns
        max_file_size := max_file_size }

/-! ## ScanMetadata -/

/-- Modelled from the spec: the scan accumulator.  The Python object keeps a
`skipped_files` dict with the two fixed keys `"pattern_matching"` and
`"exceeded_size"`; those two entries are the two `skipped_files_*` fields. -/
structure ProjectMetadata where
  scanned_files : List String
  skipped_dirs : List String
  skipped_files_pattern_matching : List String
  skipped_files_exceeded_size : List String
deriving DecidableEq, Repr

/-- The fresh accumulator of a scan invocation. -/
def ProjectMetadata.empty : ProjectMetadata := ⟨[], [], [], []⟩

/-- Field-wise concatenation of two accumulators. -/
def ProjectMetadata.append (a b : ProjectMetadata) : ProjectMetadata :=
  ⟨a.scanned_files ++ b.scanned_files,
   a.skipped_dirs ++ b.skipped_dirs,
   a.skipped_files_pattern_matching ++ b.skipped_files_pattern_matching,
   a.skipped_files_exceeded_size ++ b.skipped_files_exceeded_size⟩

/-! ## The filesystem model -/

/-- A filesystem entry: a file with a byte size, or a directory with
children.  A scan root is represented by its list of children. -/
inductive FSEntry where
  | file (name : String) (size : Nat)
  | dir (name : String) (children : List FSEntry)

/-- The name of an entry. -/
def FSEntry.name : FSEntry → String
  | .file n _ => n
  | .dir n _ => n

/-! ## TraversalEngine -/

/-- Modelled from the spec: the per-file decision of the traversal engine, in
the exact precedence exclude → include → extension, followed by the size
check for eligible files.  Ineligible files are silently omitted. -/
def processFile (lens : ProjectLens) (relpath name : String) (size : Nat)
    (md : ProjectMetadata) : ProjectMetadata :=
  if PatternMatcher.isMatch relpath lens.exclude_patterns then
    { md with skipped_files_pattern_matching :=
        md.skipped_files_pattern_matching ++ [relpath] }
  else if PatternMatcher.isMatch relpath lens.include_patterns
      || ExtensionFilter.isMatch lens.extensions name then
    if SizeGuard.exceeds lens.max_file_size size then
      { md with skipped_files_exceeded_size :=
          md.skipped_files_exceeded_size ++ [relpath] }
    else
      { md with scanned_files := md.scanned_files ++ [relpath] }
  else
    md

/-- Modelled from the spec: a directory is pruned when its name/relative path
matches the exclude patterns merged with the built-in excluded directories. -/
def dirExcluded (lens : ProjectLens) (relpath : String) : Bool :=
  PatternMatcher.isMatch relpath (lens.exclude_patterns ++ default_excluded_dirs)

mutual

/-- Modelled from the spec: the traversal engine on one entry whose parent
directory has relative segments `parent`.  Excluded directories are recorded
in `skipped_dirs` and never descended into. -/
def scanEntry (lens : ProjectLens) (parent : List String) (e : FSEntry)
    (md : ProjectMetadata) : ProjectMetadata :=
  match e with
  | .file name size => processFile lens (pathStr (parent ++ [name])) name size md
  | .dir name children =>
    if dirExcluded lens (pathStr (parent ++ [name])) then
      { md with skipped_dirs := md.skipped_dirs ++ [pathStr (parent ++ [name])] }
    else
      scanList lens (parent ++ [name]) children md

/-- The traversal engine on a list of sibling entries, left to right. -/
def scanList (lens : ProjectLens) (parent : List String) (es : List FSEntry)
    (md : ProjectMetadata) : ProjectMetadata :=
  match es with
  | [] => md
  | e :: rest => scanList lens parent rest (scanEntry lens parent e md)

end

/-- Modelled from the spec: one full scan invocation over the children of the
scan root (the root itself is never excluded), starting from a fresh
accumulator. -/
def scanProject (lens : ProjectLens) (rootChildren : List FSEntry) : ProjectMetadata :=
  scanList lens [] rootChildren ProjectMetadata.empty

/-! ## TreeRenderer -/

/-- Modelled from the spec: eligibility steps 1–4 for one file — not
excluded, and either include-matched or extension-matched.  The size check
is deliberately absent here. -/
def fileEligible (lens : ProjectLens) (relpath name : String) : Bool :=
  !PatternMatcher.isMatch relpath lens.exclude_patterns
    && (PatternMatcher.isMatch relpath lens.include_patterns
        || ExtensionFilter.isMatch lens.extensions name)

/-- Modelled from the spec: is an entry shown by the tree renderer?  A
directory is shown unless pruned; a file is shown when it passes steps 1–4
(regardless of its size). -/
def visibleChild (lens : ProjectLens) (parent : List String) : FSEntry → Bool
  | .file n _ => fileEligible lens (pathStr (parent ++ [n])) n
  | .dir n _ => !dirExcluded lens (pathStr (parent ++ [n]))

mutual

/-- Modelled from the spec: render the visible entries of one directory
level.  The last visible sibling gets the `└── ` connector, earlier ones
`├── `; `pfx` carries the accumulated continuation guides. -/
def renderEntries (lens : ProjectLens) (parent : List String) (pfx : String) :
    List FSEntry → List String
  | [] => []
  | e :: rest =>
    if visibleChild lens parent e then
      renderEntry lens parent pfx (!rest.any (visibleChild lens parent)) e
        ++ renderEntries lens parent pfx rest
    else
      renderEntries lens parent pfx rest

/-- Render one visible entry (and, for a directory, its subtree). -/
def renderEntry (lens : ProjectLens) (parent : List String) (pfx : String)
    (isLast : Bool) : FSEntry → List String
  | .file n _ => [pfx ++ (if isLast then "└── " else "├── ") ++ n]
  | .dir n children =>
    (pfx ++ (if isLast then "└── " else "├── ") ++ n)
      :: renderEntries lens (parent ++ [n]) (pfx ++ (if isLast then "    " else "│   "))
          children

end

/-- Modelled from the spec: the full tree artifact — the root name followed
by the rendered hierarchy. -/
def generate_tree (lens : ProjectLens) (rootName : String)
    (rootChildren : List FSEntry) : String :=
  String.intercalate "\n" ((rootName ++ "/") :: renderEntries lens [] "" rootChildren)

/-! ## ProjectLens instances and `export_project` -/

/-- Modelled from the spec: the mutable state of a constructed `ProjectLens`
instance — its immutable configuration plus the `metadata` attribute that
each `export_project` call overwrites with that invocation's scan. -/
structure LensState where
  lens : ProjectLens
  metadata : ProjectMetadata
deriving DecidableEq, Repr

/-- Modelled from the spec: `export_project` scans the root, stores the
scan's accumulated metadata on the instance, and produces the export
artifact (header line, tree, then the scanned files in scan order). -/
def export_project (st : LensState) (rootName : String)
    (rootChildren : List FSEntry) : LensState × String :=
  let md := scanProject st.lens rootChildren
  ({ st with metadata := md },
   "Project Content Export\n"
     ++ generate_tree st.lens rootName rootChildren ++ "\n"
     ++ String.intercalate "\n" md.scanned_files)

/-! ## List/string helper lemmas -/

/-- `dropWhile` a dot-test is the identity when the head is not a dot. -/
theorem dropWhile_dot_eq_self {l : List Char}
    (h : ∀ c, l.head? = some c → c ≠ '.') :
    l.dropWhile (fun c => c == '.') = l := by
  cases l with
  | nil => rfl
  | cons a t =>
    have ha : a ≠ '.' := h a rfl
    rw [List.dropWhile_cons_of_neg]
    simp [ha]

/-- The head surviving a `dropWhile` fails the predicate. -/
theorem head_dropWhile_false {p : α → Bool} {l : List α} {a : α}
    (h : (l.dropWhile p).head? = some a) : p a = false := by
  induction l with
  | nil => simp [List.dropWhile] at h
  | cons x t ih =>
    by_cases hx : p x
    · rw [List.dropWhile_cons_of_pos hx] at h
      exact ih h
    · rw [List.dropWhile_cons_of_neg hx] at h
      simp at h
      subst h
      simpa using hx

/-- Normalization of an extension token is idempotent. -/
theorem normalize_extension_idem (s : String) :
    normalize_extension (normalize_extension s) = normalize_extension s := by
  apply String.ext
  show ((((s.data.dropWhile (fun c => c == '.')).map Char.toLower).dropWhile
      (fun c => c == '.')).map Char.toLower) = (s.data.dropWhile (fun c => c == '.')).map Char.toLower
  have hdrop : ((s.data.dropWhile (fun c => c == '.')).map Char.toLower).dropWhile
      (fun c => c == '.') = (s.data.dropWhile (fun c => c == '.')).map Char.toLower := by
    apply dropWhile_dot_eq_self
    intro c hc
    rw [List.head?_map] at hc
    cases hhead : (s.data.dropWhile (fun c => c == '.')).head? with
    | none => rw [hhead] at hc; simp at hc
    | some b =>
      rw [hhead] at hc
      simp at hc
      have hb := @head_dropWhile_false Char (fun c => c == '.') _ _ hhead
      intro hdot
      have hbd : b = '.' := char_toLower_eq_dot (by rw [hc, hdot])
      simp [hbd] at hb
  rw [hdrop, List.map_map]
  apply List.map_congr_left
  intro c _
  exact char_toLower_idem c

/-- The per-file decision for an eligible file reduces to the size check. -/
theorem processFile_eligible (lens : ProjectLens) (relpath name : String)
    (size : Nat) (md : ProjectMetadata)
    (hexc : PatternMatcher.isMatch relpath lens.exclude_patterns = false)
    (helig : PatternMatcher.isMatch relpath lens.include_patterns = true
      ∨ ExtensionFilter.isMatch lens.extensions name = true) :
    processFile lens relpath name size md =
      if SizeGuard.exceeds lens.max_file_size size then
        { md with skipped_files_exceeded_size :=
            md.skipped_files_exceeded_size ++ [relpath] }
      else
        { md with scanned_files := md.scanned_files ++ [relpath] } := by
  rcases helig with h | h <;> simp [processFile, hexc, h]

/-! ## Claim theorems: construction and the leaf components -/

/-- **C3.** Constructing the scanner with an empty extensions sequence
yields a configuration error, whatever the other arguments are: no usable
instance (and hence no traversal) can result. -/
theorem empty_extensions_construction_fails :
    ∀ (include_patterns exclude_patterns : List String) (max_file_size : Option Nat),
      mkProjectLens [] include_patterns exclude_patterns max_file_size =
        Except.error "extensions list cannot be empty" := by
  intro inc exc m
  rfl

/-- **C4.** Every extension token in any of the four forms
`ext` / `.ext` / `EXT` / `.EXT` normalizes to the identical lowercase,
dot-free token, and construction stores only normalized tokens (the stored
list is the normalization image, each of whose members is a fixed point of
normalization). -/
theorem normalize_extensions_four_forms :
    (∀ t : String, t.data.map Char.toLower = t.data → t.data.head? ≠ some '.' →
      normalize_extension t = t
        ∧ normalize_extension ("." ++ t) = t
        ∧ normalize_extension (strUpper t) = t
        ∧ normalize_extension ("." ++ strUpper t) = t)
    ∧ (∀ exts inc exc m lens,
        mkProjectLens exts inc exc m = Except.ok lens →
          lens.extensions = exts.map normalize_extension
            ∧ ∀ e ∈ lens.extensions, normalize_extension e = e) := by
  constructor
  · intro t hlow hhead
    have hne : ∀ c, t.data.head? = some c → c ≠ '.' := by
      intro c hc hdot
      exact hhead (hdot ▸ hc)
    have hdrop : t.data.dropWhile (fun c => c == '.') = t.data :=
      dropWhile_dot_eq_self hne
    have hupne : ∀ c, (t.data.map Char.toUpper).head? = some c → c ≠ '.' := by
      intro c hc hdot
      rw [List.head?_map] at hc
      cases hh : t.data.head? with
      | none => rw [hh] at hc; simp at hc
      | some b =>
        rw [hh] at hc
        simp at hc
        exact hne b hh (char_toUpper_eq_dot (by rw [hc, hdot]))
    have hupdrop : (t.data.map Char.toUpper).dropWhile (fun c => c == '.')
        = t.data.map Char.toUpper := dropWhile_dot_eq_self hupne
    have hlowup : (t.data.map Char.toUpper).map Char.toLower = t.data := by
      rw [List.map_map]
      calc t.data.map (Char.toLower ∘ Char.toUpper)
          = t.data.map Char.toLower := List.map_congr_left (fun c _ => char_toLower_toUpper c)
        _ = t.data := hlow
    refine ⟨?_, ?_, ?_, ?_⟩
    · apply String.ext
      show (t.data.dropWhile (fun c => c == '.')).map Char.toLower = t.data
      rw [hdrop, hlow]
    · apply String.ext
      show ((("." : String) ++ t).data.dropWhile (fun c => c == '.')).map Char.toLower = t.data
      rw [String.data_append]
      show ((('.' :: t.data).dropWhile (fun c => c == '.'))).map Char.toLower = t.data
      rw [List.dropWhile_cons_of_pos (by simp), hdrop, hlow]
    · apply String.ext
      show ((t.data.map Char.toUpper).dropWhile (fun c => c == '.')).map Char.toLower = t.data
      rw [hupdrop, hlowup]
    · apply String.ext
      show ((("." : String) ++ strUpper t).data.dropWhile (fun c => c == '.')).map Char.toLower
        = t.data
      rw [String.data_append]
      show ((('.' :: (strUpper t).data).dropWhile (fun c => c == '.'))).map Char.toLower = t.data
      show ((('.' :: t.data.map Char.toUpper).dropWhile (fun c => c == '.'))).map Char.toLower
        = t.data
      rw [List.dropWhile_cons_of_pos (by simp), hupdrop, hlowup]
  · intro exts inc exc m lens h
    unfold mkProjectLens at h
    by_cases he : exts.isEmpty
    · rw [if_pos he] at h
      cases h
    · rw [if_neg he] at h
      cases h
      constructor
      · rfl
      · intro e he'
        simp at he'
        obtain ⟨x, _, hx⟩ := he'
        rw [← hx]
        exact normalize_extension_idem x

/-- Witness for C4 at the token `py`. -/
theorem normalize_extensions_four_forms_witness :
    normalize_extension "py" = "py"
      ∧ normalize_extension ("." ++ "py") = "py"
      ∧ normalize_extension (strUpper "py") = "py"
      ∧ normalize_extension ("." ++ strUpper "py") = "py" :=
  normalize_extensions_four_forms.1 "py" (by decide) (by decide)

/-- **C5.** For an eligible file (not excluded, and include- or
extension-matched), the size guard decides the outcome: with a configured
ceiling exceeded (KB converted to bytes) the file is recorded under
`skipped_files["exceeded_size"]` and not scanned; otherwise — in particular
whenever `max_file_size` is unconfigured — it is appended to
`scanned_files`. -/
theorem eligible_file_size_check (lens : ProjectLens) (relpath name : String)
    (size : Nat) (md : ProjectMetadata)
    (hexc : PatternMatcher.isMatch relpath lens.exclude_patterns = false)
    (helig : PatternMatcher.isMatch relpath lens.include_patterns = true
      ∨ ExtensionFilter.isMatch lens.extensions name = true) :
    ((∃ kb, lens.max_file_size = some kb ∧ size > kb * 1024) →
      processFile lens relpath name size md =
        { md with skipped_files_exceeded_size :=
            md.skipped_files_exceeded_size ++ [relpath] })
    ∧ ((∀ kb, lens.max_file_size = some kb → size ≤ kb * 1024) →
      processFile lens relpath name size md =
        { md with scanned_files := md.scanned_files ++ [relpath] }) := by
  rw [processFile_eligible lens relpath name size md hexc helig]
  constructor
  · rintro ⟨kb, hkb, hgt⟩
    rw [if_pos]
    show SizeGuard.exceeds lens.max_file_size size = true
    rw [hkb]
    simpa [SizeGuard.exceeds] using hgt
  · intro hle
    rw [if_neg]
    show ¬ SizeGuard.exceeds lens.max_file_size size = true
    cases hm : lens.max_file_size with
    | none => simp [SizeGuard.exceeds]
    | some kb =>
      have := hle kb hm
      simp [SizeGuard.exceeds]
      omega

/-- Witness for C5: a 1.5 MB binary under a 10 KB ceiling is recorded as
size-skipped; the same file with no ceiling is scanned. -/
theorem eligible_file_size_check_witness :
    processFile ⟨["py", "bin"], [], [], some 10⟩ "data/large_file.bin"
        "large_file.bin" 1500000 ProjectMetadata.empty =
      { ProjectMetadata.empty with skipped_files_exceeded_size :=
          ProjectMetadata.empty.skipped_files_exceeded_size ++ ["data/large_file.bin"] }
    ∧ processFile ⟨["py", "bin"], [], [], none⟩ "data/large_file.bin"
        "large_file.bin" 1500000 ProjectMetadata.empty =
      { ProjectMetadata.empty with scanned_files :=
          ProjectMetadata.empty.scanned_files ++ ["data/large_file.bin"] } :=
  ⟨(eligible_file_size_check ⟨["py", "bin"], [], [], some 10⟩ "data/large_file.bin"
      "large_file.bin" 1500000 ProjectMetadata.empty (by decide)
      (Or.inr (by decide))).1 ⟨10, rfl, by decide⟩,
   (eligible_file_size_check ⟨["py", "bin"], [], [], none⟩ "data/large_file.bin"
      "large_file.bin" 1500000 ProjectMetadata.empty (by decide)
      (Or.inr (by decide))).2 (by intro kb h; cases h)⟩

/-- **C6.** A file that matches no exclude pattern but matches an include
pattern is eligible unconditionally — even when its extension is not in the
configured set, the per-file decision proceeds straight to the size check
(so the file is scanned, or size-skipped, and never silently dropped). -/
theorem include_bypasses_extension_filter (lens : ProjectLens)
    (relpath name : String) (size : Nat) (md : ProjectMetadata)
    (hexc : PatternMatcher.isMatch relpath lens.exclude_patterns = false)
    (hinc : PatternMatcher.isMatch relpath lens.include_patterns = true)
    ( _hext : ExtensionFilter.isMatch lens.extensions name = false) :
    processFile lens relpath name size md =
      if SizeGuard.exceeds lens.max_file_size size then
        { md with skipped_files_exceeded_size :=
            md.skipped_files_exceeded_size ++ [relpath] }
      else
        { md with scanned_files := md.scanned_files ++ [relpath] } :=
  processFile_eligible lens relpath name size md hexc (Or.inl hinc)

/-- Witness for C6: `Dockerfile` with `extensions=["py"]`,
`include=["Dockerfile"]` is appended to `scanned_files` despite lacking a
`.py` extension. -/
theorem include_bypasses_extension_filter_witness :
    processFile ⟨["py"], ["Dockerfile"], [], none⟩ "Dockerfile" "Dockerfile" 15
        ProjectMetadata.empty =
      if SizeGuard.exceeds (none : Option Nat) 15 then
        { ProjectMetadata.empty with skipped_files_exceeded_size :=
            ProjectMetadata.empty.skipped_files_exceeded_size ++ ["Dockerfile"] }
      else
        { ProjectMetadata.empty with scanned_files :=
            ProjectMetadata.empty.scanned_files ++ ["Dockerfile"] } :=
  include_bypasses_extension_filter ⟨["py"], ["Dockerfile"], [], none⟩
    "Dockerfile" "Dockerfile" 15 ProjectMetadata.empty
    (by decide) (by decide) (by decide)

/-- **C7.** The pattern predicate is a pure boolean function that is true
exactly when some pattern of the set glob-matches the full relative path or
at least one of its individual path segments. -/
theorem pattern_matcher_characterization :
    ∀ (name_or_path : String) (patterns : List String),
      PatternMatcher.isMatch name_or_path patterns = true ↔
        ∃ pat ∈ patterns,
          fnmatch name_or_path pat = true
            ∨ ∃ seg ∈ segmentsOf name_or_path, fnmatch seg pat = true := by
  intro p pats
  simp [PatternMatcher.isMatch, List.any_eq_true]

/-! ## Accumulator algebra: the scan only appends -/

/-- All recorded relative paths of an accumulator, as one list. -/
def allPaths (m : ProjectMetadata) : List String :=
  m.scanned_files ++ m.skipped_files_pattern_matching
    ++ m.skipped_files_exceeded_size ++ m.skipped_dirs

theorem ProjectMetadata.append_empty (m : ProjectMetadata) :
    m.append ProjectMetadata.empty = m := by
  cases m
  simp [ProjectMetadata.append, ProjectMetadata.empty]

theorem ProjectMetadata.empty_append (m : ProjectMetadata) :
    ProjectMetadata.empty.append m = m := by
  cases m
  simp [ProjectMetadata.append, ProjectMetadata.empty]

theorem ProjectMetadata.append_assoc (a b c : ProjectMetadata) :
    (a.append b).append c = a.append (b.append c) := by
  cases a; cases b; cases c
  simp [ProjectMetadata.append]

/-- The per-file decision only appends to the passed accumulator. -/
theorem processFile_append (lens : ProjectLens) (relpath name : String)
    (size : Nat) (md : ProjectMetadata) :
    processFile lens relpath name size md =
      md.append (processFile lens relpath name size ProjectMetadata.empty) := by
  by_cases h1 : PatternMatcher.isMatch relpath lens.exclude_patterns = true
  · cases md
    simp [processFile, h1, ProjectMetadata.append, ProjectMetadata.empty]
  · by_cases h2 : (PatternMatcher.isMatch relpath lens.include_patterns
        || ExtensionFilter.isMatch lens.extensions name) = true
    · by_cases h3 : SizeGuard.exceeds lens.max_file_size size = true
      · cases md
        simp [processFile, h1, h2, h3, ProjectMetadata.append, ProjectMetadata.empty]
      · cases md
        simp [processFile, h1, h2, h3, ProjectMetadata.append, ProjectMetadata.empty]
    · cases md
      simp [processFile, h1, h2, ProjectMetadata.append, ProjectMetadata.empty]

mutual

/-- The traversal only appends to the passed accumulator (entry form). -/
theorem scanEntry_append (lens : ProjectLens) (parent : List String)
    (e : FSEntry) (md : ProjectMetadata) :
    scanEntry lens parent e md =
      md.append (scanEntry lens parent e ProjectMetadata.empty) := by
  cases e with
  | file n s =>
    show processFile lens (pathStr (parent ++ [n])) n s md = _
    exact processFile_append lens (pathStr (parent ++ [n])) n s md
  | dir n cs =>
    by_cases h : dirExcluded lens (pathStr (parent ++ [n])) = true
    · cases md
      simp [scanEntry, h, ProjectMetadata.append, ProjectMetadata.empty]
    · simp only [scanEntry]
      rw [if_neg h, if_neg h]
      exact scanList_append lens (parent ++ [n]) cs md

/-- The traversal only appends to the passed accumulator (list form). -/
theorem scanList_append (lens : ProjectLens) (parent : List String)
    (es : List FSEntry) (md : ProjectMetadata) :
    scanList lens parent es md =
      md.append (scanList lens parent es ProjectMetadata.empty) := by
  cases es with
  | nil =>
    show md = md.append ProjectMetadata.empty
    rw [ProjectMetadata.append_empty]
  | cons e rest =>
    show scanList lens parent rest (scanEntry lens parent e md) = _
    rw [scanList_append lens parent rest (scanEntry lens parent e md),
      scanEntry_append lens parent e md,
      ProjectMetadata.append_assoc]
    show _ = md.append (scanList lens parent rest (scanEntry lens parent e ProjectMetadata.empty))
    rw [scanList_append lens parent rest (scanEntry lens parent e ProjectMetadata.empty)]

end

/-- One step of the traversal from a fresh accumulator. -/
theorem scanList_cons_empty (lens : ProjectLens) (parent : List String)
    (e : FSEntry) (rest : List FSEntry) :
    scanList lens parent (e :: rest) ProjectMetadata.empty =
      (scanEntry lens parent e ProjectMetadata.empty).append
        (scanList lens parent rest ProjectMetadata.empty) := by
  show scanList lens parent rest (scanEntry lens parent e ProjectMetadata.empty) = _
  exact scanList_append lens parent rest (scanEntry lens parent e ProjectMetadata.empty)

/-! ## Well-formed filesystem trees and path arithmetic -/

/-- A well-formed entry name: non-empty and free of the path separator. -/
def wfName (n : String) : Prop := n ≠ "" ∧ '/' ∉ n.data

/-- A well-formed filesystem entry: well-formed names throughout, and
sibling names pairwise distinct (as on a real filesystem). -/
inductive WFEntry : FSEntry → Prop
  | file {n : String} {s : Nat} : wfName n → WFEntry (.file n s)
  | dir {n : String} {cs : List FSEntry} : wfName n → (∀ e ∈ cs, WFEntry e) →
      (cs.map FSEntry.name).Nodup → WFEntry (.dir n cs)

/-- A well-formed scan root: well-formed children with distinct names. -/
def WFForest (cs : List FSEntry) : Prop :=
  (∀ e ∈ cs, WFEntry e) ∧ (cs.map FSEntry.name).Nodup

/-- `p` is the path of `segs` possibly extended by further well-formed
segments (equality allowed). -/
def underSegs (segs : List String) (p : String) : Prop :=
  ∃ rest : List String, (∀ s ∈ rest, wfName s) ∧ p = pathStr (segs ++ rest)

/-- `p` lies strictly below the directory path `d`. -/
def strictDesc (d p : String) : Prop :=
  ∃ t : List Char, p.data = d.data ++ '/' :: t

/-- A path is never its own strict descendant. -/
theorem strictDesc_irrefl (d : String) : ¬ strictDesc d d := by
  rintro ⟨t, ht⟩
  have := congrArg List.length ht
  simp at this

/-- Cancellation: appending separator-headed (or empty) tails to
separator-free heads is injective. -/
theorem slash_cancel :
    ∀ (a b t₁ t₂ : List Char), '/' ∉ a → '/' ∉ b →
      (t₁ = [] ∨ ∃ u, t₁ = '/' :: u) → (t₂ = [] ∨ ∃ u, t₂ = '/' :: u) →
      a ++ t₁ = b ++ t₂ → a = b ∧ t₁ = t₂ := by
  intro a
  induction a with
  | nil =>
    intro b t₁ t₂ _ hb ht₁ ht₂ heq
    cases b with
    | nil => exact ⟨rfl, heq⟩
    | cons d b' =>
      exfalso
      simp only [List.nil_append] at heq
      rcases ht₁ with h | ⟨u, hu⟩
      · rw [h] at heq
        exact absurd heq.symm (by simp)
      · rw [hu] at heq
        have : d = '/' := by
          have := congrArg List.head? heq
          simpa using this.symm
        exact hb (this ▸ List.mem_cons_self d b')
  | cons c a' ih =>
    intro b t₁ t₂ ha hb ht₁ ht₂ heq
    cases b with
    | nil =>
      exfalso
      simp only [List.nil_append] at heq
      rcases ht₂ with h | ⟨u, hu⟩
      · rw [h] at heq
        exact absurd heq (by simp)
      · rw [hu] at heq
        have : c = '/' := by
          have := congrArg List.head? heq
          simpa using this
        exact ha (this ▸ List.mem_cons_self c a')
    | cons d b' =>
      simp only [List.cons_append, List.cons.injEq] at heq
      obtain ⟨hcd, heq'⟩ := heq
      have ha' : '/' ∉ a' := fun h => ha (List.mem_cons_of_mem c h)
      have hb' : '/' ∉ b' := fun h => hb (List.mem_cons_of_mem d h)
      obtain ⟨h1, h2⟩ := ih b' t₁ t₂ ha' hb' ht₁ ht₂ heq'
      exact ⟨by rw [hcd, h1], h2⟩

/-- `pathStr` of a non-empty cons. -/
theorem pathStr_cons (n : String) (rest : List String) (h : rest ≠ []) :
    pathStr (n :: rest) = n ++ "/" ++ pathStr rest := by
  cases rest with
  | nil => exact absurd rfl h
  | cons m t => rfl

/-- `pathStr` distributes over the append of non-empty segment lists. -/
theorem pathStr_append (l₁ l₂ : List String) (h₁ : l₁ ≠ []) (h₂ : l₂ ≠ []) :
    pathStr (l₁ ++ l₂) = pathStr l₁ ++ "/" ++ pathStr l₂ := by
  induction l₁ with
  | nil => exact absurd rfl h₁
  | cons n t ih =>
    cases t with
    | nil =>
      show pathStr (n :: l₂) = pathStr [n] ++ "/" ++ pathStr l₂
      rw [pathStr_cons n l₂ h₂]
      rfl
    | cons m t' =>
      have hne : (m :: t') ++ l₂ ≠ [] := by simp
      show pathStr (n :: ((m :: t') ++ l₂)) = pathStr (n :: m :: t') ++ "/" ++ pathStr l₂
      rw [pathStr_cons n ((m :: t') ++ l₂) hne, ih (by simp)]
      rw [pathStr_cons n (m :: t') (by simp)]
      simp [String.ext_iff]

/-- The data of `pathStr (n :: rest)` decomposes into the head's characters
followed by an empty or separator-headed tail. -/
theorem pathStr_cons_data (n : String) (rest : List String) :
    (pathStr (n :: rest)).data = n.data ++ (pathStr (n :: rest)).data.drop n.data.length
      ∧ ((pathStr (n :: rest)).data.drop n.data.length = [] ∧ rest = []
        ∨ ∃ u, (pathStr (n :: rest)).data.drop n.data.length = '/' :: u ∧ rest ≠ []) := by
  cases rest with
  | nil =>
    constructor
    · show n.data = n.data ++ n.data.drop n.data.length
      simp
    · left
      constructor
      · show n.data.drop n.data.length = []
        simp
      · rfl
  | cons m t =>
    rw [pathStr_cons n (m :: t) (by simp)]
    constructor
    · show (n ++ "/" ++ pathStr (m :: t)).data
        = n.data ++ (n ++ "/" ++ pathStr (m :: t)).data.drop n.data.length
      simp [String.data_append]
    · right
      refine ⟨(pathStr (m :: t)).data, ?_, by simp⟩
      show (n ++ "/" ++ pathStr (m :: t)).data.drop n.data.length = '/' :: (pathStr (m :: t)).data
      simp [String.data_append]

/-- `pathStr` is injective on lists of well-formed segments. -/
theorem pathStr_inj :
    ∀ (l₁ l₂ : List String), (∀ s ∈ l₁, wfName s) → (∀ s ∈ l₂, wfName s) →
      pathStr l₁ = pathStr l₂ → l₁ = l₂ := by
  intro l₁
  induction l₁ with
  | nil =>
    intro l₂ _ hw₂ heq
    cases l₂ with
    | nil => rfl
    | cons m t =>
      exfalso
      obtain ⟨hm1, _⟩ := hw₂ m (List.mem_cons_self m t)
      obtain ⟨hdec, _⟩ := pathStr_cons_data m t
      have hdata : ([] : List Char) = (pathStr (m :: t)).data := congrArg String.data heq
      rw [hdec] at hdata
      have hmnil : m.data = [] := by
        cases hmd : m.data with
        | nil => rfl
        | cons c cs => rw [hmd] at hdata; simp at hdata
      exact hm1 (String.ext hmnil)
  | cons n t₁ ih =>
    intro l₂ hw₁ hw₂ heq
    cases l₂ with
    | nil =>
      exfalso
      obtain ⟨hn1, _⟩ := hw₁ n (List.mem_cons_self n t₁)
      obtain ⟨hdec, _⟩ := pathStr_cons_data n t₁
      have hdata : (pathStr (n :: t₁)).data = ([] : List Char) := congrArg String.data heq
      rw [hdec] at hdata
      have hnnil : n.data = [] := by
        cases hnd : n.data with
        | nil => rfl
        | cons c cs => rw [hnd] at hdata; simp at hdata
      exact hn1 (String.ext hnnil)
    | cons m t₂ =>
      obtain ⟨hdec₁, htl₁⟩ := pathStr_cons_data n t₁
      obtain ⟨hdec₂, htl₂⟩ := pathStr_cons_data m t₂
      have hdata : (pathStr (n :: t₁)).data = (pathStr (m :: t₂)).data := by rw [heq]
      have hcan := slash_cancel n.data m.data
        ((pathStr (n :: t₁)).data.drop n.data.length)
        ((pathStr (m :: t₂)).data.drop m.data.length)
        (hw₁ n (List.mem_cons_self n t₁)).2 (hw₂ m (List.mem_cons_self m t₂)).2
        (by rcases htl₁ with ⟨h, _⟩ | ⟨u, h, _⟩
            · exact Or.inl h
            · exact Or.inr ⟨u, h⟩)
        (by rcases htl₂ with ⟨h, _⟩ | ⟨u, h, _⟩
            · exact Or.inl h
            · exact Or.inr ⟨u, h⟩)
        (by rw [← hdec₁, ← hdec₂, hdata])
      obtain ⟨hnm, htl⟩ := hcan
      have hnm' : n = m := String.ext hnm
      rcases htl₁ with ⟨h1, hrest₁⟩ | ⟨u₁, h1, hrest₁⟩
      · rcases htl₂ with ⟨h2, hrest₂⟩ | ⟨u₂, h2, hrest₂⟩
        · rw [hnm', hrest₁, hrest₂]
        · rw [h1, h2] at htl
          simp at htl
      · rcases htl₂ with ⟨h2, hrest₂⟩ | ⟨u₂, h2, hrest₂⟩
        · rw [h1, h2] at htl
          simp at htl
        · have hne₁ : t₁ ≠ [] := hrest₁
          have hne₂ : t₂ ≠ [] := hrest₂
          have hpt : pathStr t₁ = pathStr t₂ := by
            apply String.ext
            have e₁ : (pathStr (n :: t₁)).data = n.data ++ '/' :: (pathStr t₁).data := by
              rw [pathStr_cons n t₁ hne₁]
              simp [String.data_append]
            have e₂ : (pathStr (m :: t₂)).data = m.data ++ '/' :: (pathStr t₂).data := by
              rw [pathStr_cons m t₂ hne₂]
              simp [String.data_append]
            have e₃ : n.data ++ '/' :: (pathStr t₁).data = m.data ++ '/' :: (pathStr t₂).data := by
              rw [← e₁, ← e₂, hdata]
            rw [hnm] at e₃
            simpa using e₃
          have := ih t₂ (fun s hs => hw₁ s (List.mem_cons_of_mem n hs))
            (fun s hs => hw₂ s (List.mem_cons_of_mem m hs)) hpt
          rw [hnm', this]

/-- The path of a non-empty well-formed extension is a strict descendant. -/
theorem strictDesc_of_extend (segs rest : List String)
    (h₁ : segs ≠ []) (h₂ : rest ≠ []) :
    strictDesc (pathStr segs) (pathStr (segs ++ rest)) := by
  refine ⟨(pathStr rest).data, ?_⟩
  rw [pathStr_append segs rest h₁ h₂]
  simp [String.data_append]

/-- `pathStr` of a cons with a non-empty tail, at the character level. -/
theorem pathStr_cons_data_ne (n : String) (rest : List String) (h : rest ≠ []) :
    (pathStr (n :: rest)).data = n.data ++ '/' :: (pathStr rest).data := by
  rw [pathStr_cons n rest h]
  simp [String.data_append]

/-- Reflexivity of `underSegs`. -/
theorem underSegs_refl (segs : List String) : underSegs segs (pathStr segs) :=
  ⟨[], by simp, by simp⟩

/-- Weakening `underSegs` one level up. -/
theorem underSegs_up {segs : List String} {n : String} {p : String}
    (hn : wfName n) (h : underSegs (segs ++ [n]) p) : underSegs segs p := by
  obtain ⟨rest, hw, hp⟩ := h
  refine ⟨n :: rest, ?_, ?_⟩
  · intro s hs
    rcases List.mem_cons.1 hs with h | h
    · exact h ▸ hn
    · exact hw s h
  · rw [hp]
    congr 1
    simp

/-- Two sibling branches with distinct names cover disjoint paths. -/
theorem branch_names_eq {segs : List String} {a b p : String}
    (hsegs : ∀ s ∈ segs, wfName s) (ha : wfName a) (hb : wfName b)
    (h₁ : underSegs (segs ++ [a]) p) (h₂ : underSegs (segs ++ [b]) p) : a = b := by
  obtain ⟨r₁, hw₁, hp₁⟩ := h₁
  obtain ⟨r₂, hw₂, hp₂⟩ := h₂
  have hprep : pathStr (segs ++ a :: r₁) = pathStr (segs ++ b :: r₂) := by
    have e₁ : segs ++ [a] ++ r₁ = segs ++ a :: r₁ := by simp
    have e₂ : segs ++ [b] ++ r₂ = segs ++ b :: r₂ := by simp
    rw [← e₁, ← e₂, ← hp₁, ← hp₂]
  have hlists := pathStr_inj (segs ++ a :: r₁) (segs ++ b :: r₂)
    (by intro s hs
        rcases List.mem_append.1 hs with h | h
        · exact hsegs s h
        · rcases List.mem_cons.1 h with h' | h'
          · exact h' ▸ ha
          · exact hw₁ s h')
    (by intro s hs
        rcases List.mem_append.1 hs with h | h
        · exact hsegs s h
        · rcases List.mem_cons.1 h with h' | h'
          · exact h' ▸ hb
          · exact hw₂ s h')
    hprep
  have := List.append_cancel_left hlists
  exact (List.cons.injEq _ _ _ _ ▸ this).1

/-- A strict string-level descent between well-formed paths is a proper
segment-list extension. -/
theorem strictDesc_segments :
    ∀ (sd sp : List String), sd ≠ [] → sp ≠ [] →
      (∀ s ∈ sd, wfName s) → (∀ s ∈ sp, wfName s) →
      strictDesc (pathStr sd) (pathStr sp) →
      sd <+: sp ∧ sd ≠ sp := by
  intro sd
  induction sd with
  | nil => intro sp h; exact absurd rfl h
  | cons a sd' ih =>
    intro sp _ hsp hwd hwp hdesc
    obtain ⟨t, ht⟩ := hdesc
    cases sp with
    | nil => exact absurd rfl hsp
    | cons b sr =>
      have ha : wfName a := hwd a (List.mem_cons_self a sd')
      have hb : wfName b := hwp b (List.mem_cons_self b sr)
      by_cases hsd0 : sd' = []
      · subst hsd0
        have ht' : (pathStr (b :: sr)).data = a.data ++ '/' :: t := ht
        cases sr with
        | nil =>
          exfalso
          have htb : b.data = a.data ++ '/' :: t := ht'
          obtain ⟨_, h2⟩ := slash_cancel b.data a.data [] ('/' :: t)
            hb.2 ha.2 (Or.inl rfl) (Or.inr ⟨t, rfl⟩) (by simpa using htb)
          simp at h2
        | cons m ms =>
          rw [pathStr_cons_data_ne b (m :: ms) (by simp)] at ht'
          obtain ⟨h1, _⟩ := slash_cancel b.data a.data
            ('/' :: (pathStr (m :: ms)).data) ('/' :: t) hb.2 ha.2
            (Or.inr ⟨_, rfl⟩) (Or.inr ⟨t, rfl⟩) ht'
          have hab : a = b := (String.ext h1).symm
          subst hab
          constructor
          · simp
          · simp
      · rw [pathStr_cons_data_ne a sd' hsd0] at ht
        have ht2 : (pathStr (b :: sr)).data
            = a.data ++ '/' :: ((pathStr sd').data ++ '/' :: t) := by
          rw [ht]
          simp
        cases sr with
        | nil =>
          exfalso
          have htb : b.data = a.data ++ '/' :: ((pathStr sd').data ++ '/' :: t) := ht2
          obtain ⟨_, h2⟩ := slash_cancel b.data a.data []
            ('/' :: ((pathStr sd').data ++ '/' :: t)) hb.2 ha.2
            (Or.inl rfl) (Or.inr ⟨_, rfl⟩) (by simpa using htb)
          simp at h2
        | cons m ms =>
          rw [pathStr_cons_data_ne b (m :: ms) (by simp)] at ht2
          obtain ⟨h1, h2⟩ := slash_cancel b.data a.data
            ('/' :: (pathStr (m :: ms)).data)
            ('/' :: ((pathStr sd').data ++ '/' :: t)) hb.2 ha.2
            (Or.inr ⟨_, rfl⟩) (Or.inr ⟨_, rfl⟩) ht2
          have hab : a = b := (String.ext h1).symm
          have h3 : (pathStr (m :: ms)).data = (pathStr sd').data ++ '/' :: t := by
            simpa using h2
          obtain ⟨hpre, hne⟩ := ih (m :: ms) hsd0 (by simp)
            (fun s hs => hwd s (List.mem_cons_of_mem a hs))
            (fun s hs => hwp s (List.mem_cons_of_mem b hs))
            ⟨t, h3⟩
          subst hab
          constructor
          · exact List.cons_prefix_cons.2 ⟨rfl, hpre⟩
          · intro hcontra
            exact hne (List.cons.injEq _ _ _ _ ▸ hcontra).2

/-- Paths under sibling branches with distinct names never descend into one
another. -/
theorem no_cross_desc {segs : List String} {a b d p : String}
    (hsegs : ∀ s ∈ segs, wfName s) (ha : wfName a) (hb : wfName b) (hne : a ≠ b)
    (hd : underSegs (segs ++ [a]) d) (hp : underSegs (segs ++ [b]) p) :
    ¬ strictDesc d p := by
  intro hdesc
  obtain ⟨rd, hwrd, hde⟩ := hd
  obtain ⟨rp, hwrp, hpe⟩ := hp
  have hd' : d = pathStr (segs ++ a :: rd) := by
    rw [hde]
    congr 1
    simp
  have hp' : p = pathStr (segs ++ b :: rp) := by
    rw [hpe]
    congr 1
    simp
  have hwd : ∀ s ∈ segs ++ a :: rd, wfName s := by
    intro s hs
    rcases List.mem_append.1 hs with h | h
    · exact hsegs s h
    · rcases List.mem_cons.1 h with h' | h'
      · exact h' ▸ ha
      · exact hwrd s h'
  have hwp' : ∀ s ∈ segs ++ b :: rp, wfName s := by
    intro s hs
    rcases List.mem_append.1 hs with h | h
    · exact hsegs s h
    · rcases List.mem_cons.1 h with h' | h'
      · exact h' ▸ hb
      · exact hwrp s h'
  have := strictDesc_segments (segs ++ a :: rd) (segs ++ b :: rp)
    (by simp) (by simp) hwd hwp' (hd' ▸ hp' ▸ hdesc)
  have hpre := (List.prefix_append_right_inj segs).1 this.1
  exact hne (List.cons_prefix_cons.1 hpre).1

/-- The name of a well-formed entry is well-formed. -/
theorem WFEntry.name_wf {e : FSEntry} (h : WFEntry e) : wfName e.name := by
  cases h with
  | file hn => exact hn
  | dir hn _ _ => exact hn

/-- Interchange permutation for four concatenated lists. -/
theorem perm_interchange {α : Type} (x y z w : List α) :
    List.Perm ((x ++ y) ++ (z ++ w)) ((x ++ z) ++ (y ++ w)) := by
  have h : List.Perm (x ++ ((y ++ z) ++ w)) (x ++ ((z ++ y) ++ w)) :=
    List.Perm.append_left x (List.Perm.append_right w List.perm_append_comm)
  have e1 : (x ++ y) ++ (z ++ w) = x ++ ((y ++ z) ++ w) := by simp
  have e2 : (x ++ z) ++ (y ++ w) = x ++ ((z ++ y) ++ w) := by simp
  rw [e1, e2]
  exact h

/-- `allPaths` of an `append` is a permutation of the two path lists. -/
theorem allPaths_append_perm (a b : ProjectMetadata) :
    List.Perm (allPaths (a.append b)) (allPaths a ++ allPaths b) := by
  cases a with
  | mk a1 a2 a3 a4 =>
    cases b with
    | mk b1 b2 b3 b4 =>
      show List.Perm ((((a1 ++ b1) ++ (a3 ++ b3)) ++ (a4 ++ b4)) ++ (a2 ++ b2))
        ((((a1 ++ a3) ++ a4) ++ a2) ++ (((b1 ++ b3) ++ b4) ++ b2))
      have s1 := perm_interchange a1 b1 a3 b3
      have s2 := s1.append_right (a4 ++ b4)
      have s3 := perm_interchange (a1 ++ a3) (b1 ++ b3) a4 b4
      have s4 := (s2.trans s3).append_right (a2 ++ b2)
      have s5 := perm_interchange ((a1 ++ a3) ++ a4) ((b1 ++ b3) ++ b4) a2 b2
      exact s4.trans s5

/-- Membership in the paths of an `append`. -/
theorem mem_allPaths_append {x : String} {a b : ProjectMetadata} :
    x ∈ allPaths (a.append b) ↔ x ∈ allPaths a ∨ x ∈ allPaths b := by
  constructor
  · intro h
    have := (allPaths_append_perm a b).mem_iff.1 h
    exact List.mem_append.1 this
  · intro h
    exact (allPaths_append_perm a b).mem_iff.2 (List.mem_append.2 h)

/-- Skipped directories are among the recorded paths. -/
theorem dirs_mem_allPaths {m : ProjectMetadata} {d : String}
    (h : d ∈ m.skipped_dirs) : d ∈ allPaths m := by
  simp only [allPaths, List.mem_append]
  tauto

/-- From a fresh accumulator, the per-file decision leaves one of four
results. -/
theorem processFile_empty_cases (lens : ProjectLens) (rel n : String) (s : Nat) :
    processFile lens rel n s ProjectMetadata.empty = ProjectMetadata.empty
    ∨ processFile lens rel n s ProjectMetadata.empty = ⟨[rel], [], [], []⟩
    ∨ processFile lens rel n s ProjectMetadata.empty = ⟨[], [], [rel], []⟩
    ∨ processFile lens rel n s ProjectMetadata.empty = ⟨[], [], [], [rel]⟩ := by
  by_cases h1 : PatternMatcher.isMatch rel lens.exclude_patterns = true
  · right; right; left
    simp [processFile, h1, ProjectMetadata.empty]
  · by_cases h2 : (PatternMatcher.isMatch rel lens.include_patterns
        || ExtensionFilter.isMatch lens.extensions n) = true
    · by_cases h3 : SizeGuard.exceeds lens.max_file_size s = true
      · right; right; right
        simp [processFile, h1, h2, h3, ProjectMetadata.empty]
      · right; left
        simp [processFile, h1, h2, h3, ProjectMetadata.empty]
    · left
      simp [processFile, h1, h2, ProjectMetadata.empty]

mutual

/-- Soundness invariant for one entry scanned from a fresh accumulator:
every recorded path lies at or below the entry's own relative path, the
recorded paths are pairwise distinct, and nothing is recorded strictly below
any recorded pruned directory. -/
theorem scanEntry_inv (lens : ProjectLens) (parent : List String) (e : FSEntry)
    (hw : WFEntry e) (hp : ∀ s ∈ parent, wfName s) :
    (∀ q ∈ allPaths (scanEntry lens parent e ProjectMetadata.empty),
        underSegs (parent ++ [e.name]) q)
    ∧ (allPaths (scanEntry lens parent e ProjectMetadata.empty)).Nodup
    ∧ (∀ d ∈ (scanEntry lens parent e ProjectMetadata.empty).skipped_dirs,
        ∀ q ∈ allPaths (scanEntry lens parent e ProjectMetadata.empty),
          ¬ strictDesc d q) := by
  cases e with
  | file n s =>
    have hcases := processFile_empty_cases lens (pathStr (parent ++ [n])) n s
    have heq : scanEntry lens parent (.file n s) ProjectMetadata.empty
        = processFile lens (pathStr (parent ++ [n])) n s ProjectMetadata.empty := rfl
    rw [heq]
    rcases hcases with h | h | h | h <;> rw [h] <;>
      refine ⟨?_, ?_, ?_⟩ <;>
      simp [allPaths, ProjectMetadata.empty, FSEntry.name] <;>
      exact underSegs_refl (parent ++ [n])
  | dir n cs =>
    by_cases hexc : dirExcluded lens (pathStr (parent ++ [n])) = true
    · have heq : scanEntry lens parent (.dir n cs) ProjectMetadata.empty
          = ⟨[], [pathStr (parent ++ [n])], [], []⟩ := by
        simp [scanEntry, hexc, ProjectMetadata.empty]
      rw [heq]
      refine ⟨?_, ?_, ?_⟩
      · intro q hq
        simp [allPaths] at hq
        rw [hq]
        exact underSegs_refl (parent ++ [n])
      · simp [allPaths]
      · intro d hd q hq
        simp at hd
        simp [allPaths] at hq
        rw [hd, hq]
        exact strictDesc_irrefl _
    · have heq : scanEntry lens parent (.dir n cs) ProjectMetadata.empty
          = scanList lens (parent ++ [n]) cs ProjectMetadata.empty := by
        simp only [scanEntry]
        rw [if_neg hexc]
      cases hw with
      | dir hn hwcs hnames =>
        have hp' : ∀ s ∈ parent ++ [n], wfName s := by
          intro s hs
          rcases List.mem_append.1 hs with h | h
          · exact hp s h
          · rcases List.mem_cons.1 h with h' | h'
            · exact h' ▸ hn
            · cases h'
        obtain ⟨ih1, ih2, ih3⟩ := scanList_inv lens (parent ++ [n]) cs hwcs hnames hp'
        rw [heq]
        refine ⟨?_, ih2, ih3⟩
        intro q hq
        obtain ⟨c, hc, hunder⟩ := ih1 q hq
        exact underSegs_up ((hwcs c hc).name_wf) hunder

/-- Soundness invariant for a sibling list scanned from a fresh
accumulator. -/
theorem scanList_inv (lens : ProjectLens) (parent : List String)
    (es : List FSEntry) (hw : ∀ e ∈ es, WFEntry e)
    (hnames : (es.map FSEntry.name).Nodup) (hp : ∀ s ∈ parent, wfName s) :
    (∀ q ∈ allPaths (scanList lens parent es ProjectMetadata.empty),
        ∃ e ∈ es, underSegs (parent ++ [e.name]) q)
    ∧ (allPaths (scanList lens parent es ProjectMetadata.empty)).Nodup
    ∧ (∀ d ∈ (scanList lens parent es ProjectMetadata.empty).skipped_dirs,
        ∀ q ∈ allPaths (scanList lens parent es ProjectMetadata.empty),
          ¬ strictDesc d q) := by
  cases es with
  | nil =>
    refine ⟨?_, ?_, ?_⟩ <;> simp [scanList, allPaths, ProjectMetadata.empty]
  | cons e rest =>
    have heq := scanList_cons_empty lens parent e rest
    have hwe : WFEntry e := hw e (List.mem_cons_self e rest)
    have hwrest : ∀ e' ∈ rest, WFEntry e' := fun e' h' => hw e' (List.mem_cons_of_mem e h')
    have hnames' : (rest.map FSEntry.name).Nodup := by
      rw [List.map_cons] at hnames
      exact (List.nodup_cons.1 hnames).2
    have hname_not : e.name ∉ rest.map FSEntry.name := by
      rw [List.map_cons] at hnames
      exact (List.nodup_cons.1 hnames).1
    obtain ⟨a1, a2, a3⟩ := scanEntry_inv lens parent e hwe hp
    obtain ⟨b1, b2, b3⟩ := scanList_inv lens parent rest hwrest hnames' hp
    have hdisj : ∀ q, q ∈ allPaths (scanEntry lens parent e ProjectMetadata.empty) →
        q ∈ allPaths (scanList lens parent rest ProjectMetadata.empty) → False := by
      intro q hqa hqb
      obtain ⟨e', he', hu'⟩ := b1 q hqb
      have := branch_names_eq hp hwe.name_wf (hwrest e' he').name_wf (a1 q hqa) hu'
      exact hname_not (this ▸ List.mem_map_of_mem FSEntry.name he')
    rw [heq]
    refine ⟨?_, ?_, ?_⟩
    · intro q hq
      rcases mem_allPaths_append.1 hq with h | h
      · exact ⟨e, List.mem_cons_self e rest, a1 q h⟩
      · obtain ⟨e', he', hu'⟩ := b1 q h
        exact ⟨e', List.mem_cons_of_mem e he', hu'⟩
    · refine (allPaths_append_perm _ _).nodup_iff.2 ?_
      exact List.Nodup.append a2 b2 (fun q hqa hqb => hdisj q hqa hqb)
    · intro d hd q hq
      have hd' : d ∈ (scanEntry lens parent e ProjectMetadata.empty).skipped_dirs
          ∨ d ∈ (scanList lens parent rest ProjectMetadata.empty).skipped_dirs := by
        have : (ProjectMetadata.append (scanEntry lens parent e ProjectMetadata.empty)
            (scanList lens parent rest ProjectMetadata.empty)).skipped_dirs
            = (scanEntry lens parent e ProjectMetadata.empty).skipped_dirs
              ++ (scanList lens parent rest ProjectMetadata.empty).skipped_dirs := rfl
        rw [this] at hd
        exact List.mem_append.1 hd
      rcases hd' with hdA | hdB <;> rcases mem_allPaths_append.1 hq with hqA | hqB
      · exact a3 d hdA q hqA
      · -- pruned directory from the head entry, path from the tail
        obtain ⟨e', he', hu'⟩ := b1 q hqB
        have hdu : underSegs (parent ++ [e.name]) d := a1 d (dirs_mem_allPaths hdA)
        have hne : e.name ≠ e'.name := by
          intro hcontra
          exact hname_not (hcontra ▸ List.mem_map_of_mem FSEntry.name he')
        exact no_cross_desc hp hwe.name_wf (hwrest e' he').name_wf hne hdu hu'
      · -- pruned directory from the tail, path from the head entry
        obtain ⟨e', he', hdu'⟩ := b1 d (dirs_mem_allPaths hdB)
        have hqu : underSegs (parent ++ [e.name]) q := a1 q hqA
        have hne : e'.name ≠ e.name := by
          intro hcontra
          exact hname_not (hcontra ▸ List.mem_map_of_mem FSEntry.name he')
        exact no_cross_desc hp (hwrest e' he').name_wf hwe.name_wf hne hdu' hqu
      · exact b3 d hdB q hqB

end

/-- **C9.** After a completed scan of a well-formed tree: `scanned_files`
and each `skipped_files` list are duplicate-free, a path appears in at most
one of {`scanned_files`, `skipped_files["pattern_matching"]`,
`skipped_files["exceeded_size"]`}, and none of these paths lies strictly
below a directory recorded in `skipped_dirs`. -/
theorem metadata_lists_disjoint (lens : ProjectLens) (cs : List FSEntry)
    (hwf : WFForest cs) :
    (scanProject lens cs).scanned_files.Nodup
    ∧ (scanProject lens cs).skipped_files_pattern_matching.Nodup
    ∧ (scanProject lens cs).skipped_files_exceeded_size.Nodup
    ∧ (∀ p, ¬(p ∈ (scanProject lens cs).scanned_files
        ∧ p ∈ (scanProject lens cs).skipped_files_pattern_matching))
    ∧ (∀ p, ¬(p ∈ (scanProject lens cs).scanned_files
        ∧ p ∈ (scanProject lens cs).skipped_files_exceeded_size))
    ∧ (∀ p, ¬(p ∈ (scanProject lens cs).skipped_files_pattern_matching
        ∧ p ∈ (scanProject lens cs).skipped_files_exceeded_size))
    ∧ (∀ d ∈ (scanProject lens cs).skipped_dirs, ∀ p,
        (p ∈ (scanProject lens cs).scanned_files
          ∨ p ∈ (scanProject lens cs).skipped_files_pattern_matching
          ∨ p ∈ (scanProject lens cs).skipped_files_exceeded_size) →
        ¬ strictDesc d p) := by
  obtain ⟨_, hnodup, hdirs⟩ := scanList_inv lens [] cs hwf.1 hwf.2 (by simp)
  have hsc : scanProject lens cs = scanList lens [] cs ProjectMetadata.empty := rfl
  rw [hsc]
  set m := scanList lens [] cs ProjectMetadata.empty with hm
  have h1 := List.nodup_append.1 hnodup
  have h2 := List.nodup_append.1 h1.1
  have h3 := List.nodup_append.1 h2.1
  refine ⟨h3.1, h3.2.1, h2.2.1, ?_, ?_, ?_, ?_⟩
  · intro p ⟨hp1, hp2⟩
    exact h3.2.2 hp1 hp2
  · intro p ⟨hp1, hp2⟩
    exact h2.2.2 (List.mem_append.2 (Or.inl hp1)) hp2
  · intro p ⟨hp1, hp2⟩
    exact h2.2.2 (List.mem_append.2 (Or.inr hp1)) hp2
  · intro d hd p hp
    apply hdirs d hd p
    simp only [allPaths, List.mem_append]
    tauto

/-! ## Locating entries and transferring their contributions -/

/-- `LocatesP es ps e`: starting from the sibling list `es`, descending
through the chain of directories named by `ps` reaches the entry `e`. -/
inductive LocatesP : List FSEntry → List String → FSEntry → Prop
  | here {es : List FSEntry} {e : FSEntry} : e ∈ es → LocatesP es [] e
  | deeper {es : List FSEntry} {n : String} {dcs : List FSEntry}
      {ps : List String} {e : FSEntry} :
      FSEntry.dir n dcs ∈ es → LocatesP dcs ps e → LocatesP es (n :: ps) e

/-- None of the directories on the descent chain `ps` (relative to `parent`)
is pruned. -/
def ancestorsClear (lens : ProjectLens) (parent ps : List String) : Prop :=
  ∀ k, 0 < k → k ≤ ps.length →
    dirExcluded lens (pathStr (parent ++ ps.take k)) = false

/-- Component-wise inclusion of accumulators. -/
def MetaSub (a b : ProjectMetadata) : Prop :=
  a.scanned_files ⊆ b.scanned_files
    ∧ a.skipped_dirs ⊆ b.skipped_dirs
    ∧ a.skipped_files_pattern_matching ⊆ b.skipped_files_pattern_matching
    ∧ a.skipped_files_exceeded_size ⊆ b.skipped_files_exceeded_size

theorem MetaSub.trans {a b c : ProjectMetadata}
    (h₁ : MetaSub a b) (h₂ : MetaSub b c) : MetaSub a c :=
  ⟨h₁.1.trans h₂.1, h₁.2.1.trans h₂.2.1, h₁.2.2.1.trans h₂.2.2.1,
   h₁.2.2.2.trans h₂.2.2.2⟩

theorem MetaSub.append_left (a b : ProjectMetadata) : MetaSub a (a.append b) := by
  cases a; cases b
  refine ⟨?_, ?_, ?_, ?_⟩ <;> simp [ProjectMetadata.append]

theorem MetaSub.append_right (a b : ProjectMetadata) : MetaSub b (a.append b) := by
  cases a; cases b
  refine ⟨?_, ?_, ?_, ?_⟩ <;> simp [ProjectMetadata.append]

/-- A member entry's contribution is contained in the sibling scan. -/
theorem scanEntry_sub_scanList (lens : ProjectLens) (parent : List String)
    {e : FSEntry} : ∀ {es : List FSEntry}, e ∈ es →
    MetaSub (scanEntry lens parent e ProjectMetadata.empty)
      (scanList lens parent es ProjectMetadata.empty) := by
  intro es hmem
  induction es with
  | nil => cases hmem
  | cons f rest ih =>
    rw [scanList_cons_empty]
    rcases List.mem_cons.1 hmem with h | h
    · rw [h]
      exact MetaSub.append_left _ _
    · exact (ih h).trans (MetaSub.append_right _ _)

/-- The contribution of a located entry, evaluated at its own relative path,
is contained in the whole scan, provided no directory on the way down is
pruned. -/
theorem locates_transfer (lens : ProjectLens) {es : List FSEntry}
    {ps : List String} {e : FSEntry} (hloc : LocatesP es ps e) :
    ∀ parent, ancestorsClear lens parent ps →
      MetaSub (scanEntry lens (parent ++ ps) e ProjectMetadata.empty)
        (scanList lens parent es ProjectMetadata.empty) := by
  induction hloc with
  | here hmem =>
    intro parent _
    simpa using scanEntry_sub_scanList lens parent hmem
  | deeper hdir hloc' ih =>
    intro parent hclear
    rename_i es n dcs ps' e'
    have hclear1 : dirExcluded lens (pathStr (parent ++ [n])) = false := by
      have := hclear 1 (by omega) (by simp)
      simpa using this
    have heq : scanEntry lens parent (.dir n dcs) ProjectMetadata.empty
        = scanList lens (parent ++ [n]) dcs ProjectMetadata.empty := by
      simp only [scanEntry]
      rw [if_neg (by rw [hclear1]; simp)]
    have hclear' : ancestorsClear lens (parent ++ [n]) ps' := by
      intro k hk hk'
      have := hclear (k + 1) (by omega) (by simp; omega)
      have harr : parent ++ (n :: ps').take (k + 1) = (parent ++ [n]) ++ ps'.take k := by
        simp [List.take_succ_cons]
      rwa [harr] at this
    have hmain := ih (parent ++ [n]) hclear'
    have harr2 : (parent ++ [n]) ++ ps' = parent ++ n :: ps' := by simp
    rw [harr2] at hmain
    exact hmain.trans (heq ▸ scanEntry_sub_scanList lens parent hdir)

mutual

/-- Every path recorded as scanned passed the exclude check (entry form). -/
theorem scanEntry_scanned_not_excluded (lens : ProjectLens)
    (parent : List String) (e : FSEntry) :
    ∀ p ∈ (scanEntry lens parent e ProjectMetadata.empty).scanned_files,
      PatternMatcher.isMatch p lens.exclude_patterns = false := by
  cases e with
  | file n s =>
    intro p hp
    have heq : scanEntry lens parent (.file n s) ProjectMetadata.empty
        = processFile lens (pathStr (parent ++ [n])) n s ProjectMetadata.empty := rfl
    rw [heq] at hp
    by_cases h1 : PatternMatcher.isMatch (pathStr (parent ++ [n]))
        lens.exclude_patterns = true
    · simp [processFile, h1, ProjectMetadata.empty] at hp
    · by_cases h2 : (PatternMatcher.isMatch (pathStr (parent ++ [n]))
          lens.include_patterns || ExtensionFilter.isMatch lens.extensions n) = true
      · by_cases h3 : SizeGuard.exceeds lens.max_file_size s = true
        · simp [processFile, h1, h2, h3, ProjectMetadata.empty] at hp
        · simp [processFile, h1, h2, h3, ProjectMetadata.empty] at hp
          rw [hp]
          simpa using h1
      · simp [processFile, h1, h2, ProjectMetadata.empty] at hp
  | dir n cs =>
    intro p hp
    by_cases hexc : dirExcluded lens (pathStr (parent ++ [n])) = true
    · simp [scanEntry, hexc, ProjectMetadata.empty] at hp
    · have heq : scanEntry lens parent (.dir n cs) ProjectMetadata.empty
          = scanList lens (parent ++ [n]) cs ProjectMetadata.empty := by
        simp only [scanEntry]
        rw [if_neg hexc]
      rw [heq] at hp
      exact scanList_scanned_not_excluded lens (parent ++ [n]) cs p hp

/-- Every path recorded as scanned passed the exclude check (list form). -/
theorem scanList_scanned_not_excluded (lens : ProjectLens)
    (parent : List String) (es : List FSEntry) :
    ∀ p ∈ (scanList lens parent es ProjectMetadata.empty).scanned_files,
      PatternMatcher.isMatch p lens.exclude_patterns = false := by
  cases es with
  | nil =>
    intro p hp
    simp [scanList, ProjectMetadata.empty] at hp
  | cons e rest =>
    intro p hp
    rw [scanList_cons_empty] at hp
    have : (ProjectMetadata.append (scanEntry lens parent e ProjectMetadata.empty)
        (scanList lens parent rest ProjectMetadata.empty)).scanned_files
        = (scanEntry lens parent e ProjectMetadata.empty).scanned_files
          ++ (scanList lens parent rest ProjectMetadata.empty).scanned_files := rfl
    rw [this] at hp
    rcases List.mem_append.1 hp with h | h
    · exact scanEntry_scanned_not_excluded lens parent e p h
    · exact scanList_scanned_not_excluded lens parent rest p h

end

/-- **C1** (amended): a file whose relative path matches an exclude pattern
is never appended to `scanned_files`; and when every directory on the way
down to it is descended into (none pruned), a file matching both an include
and an exclude pattern is recorded under
`skipped_files["pattern_matching"]`. -/
theorem exclude_overrides_include (lens : ProjectLens) (cs : List FSEntry) :
    (∀ p ∈ (scanProject lens cs).scanned_files,
        PatternMatcher.isMatch p lens.exclude_patterns = false)
    ∧ (∀ (ps : List String) (name : String) (size : Nat),
        LocatesP cs ps (.file name size) →
        ancestorsClear lens [] ps →
        PatternMatcher.isMatch (pathStr (ps ++ [name])) lens.include_patterns = true →
        PatternMatcher.isMatch (pathStr (ps ++ [name])) lens.exclude_patterns = true →
        pathStr (ps ++ [name]) ∈ (scanProject lens cs).skipped_files_pattern_matching
          ∧ pathStr (ps ++ [name]) ∉ (scanProject lens cs).scanned_files) := by
  constructor
  · exact scanList_scanned_not_excluded lens [] cs
  · intro ps name size hloc hclear _ hexc
    have htrans := locates_transfer lens hloc [] hclear
    simp only [List.nil_append] at htrans
    have hentry : scanEntry lens ps (.file name size) ProjectMetadata.empty
        = ⟨[], [], [pathStr (ps ++ [name])], []⟩ := by
      show processFile lens (pathStr (ps ++ [name])) name size ProjectMetadata.empty = _
      simp [processFile, hexc, ProjectMetadata.empty]
    rw [hentry] at htrans
    constructor
    · exact htrans.2.2.1 (by simp)
    · intro hmem
      have := scanList_scanned_not_excluded lens [] cs _ hmem
      rw [this] at hexc
      cases hexc

/-- Witness for the amended C1: `README.md` matching both
`include=["README.md"]` and `exclude=["*.md"]` lands in
`skipped_files["pattern_matching"]` and not in `scanned_files`. -/
theorem exclude_overrides_include_witness :
    pathStr ([] ++ ["README.md"])
        ∈ (scanProject ⟨["py"], ["README.md"], ["*.md"], none⟩
            [FSEntry.file "README.md" 4]).skipped_files_pattern_matching
      ∧ pathStr ([] ++ ["README.md"])
        ∉ (scanProject ⟨["py"], ["README.md"], ["*.md"], none⟩
            [FSEntry.file "README.md" 4]).scanned_files :=
  (exclude_overrides_include ⟨["py"], ["README.md"], ["*.md"], none⟩
      [FSEntry.file "README.md" 4]).2 [] "README.md" 4
    (LocatesP.here (by simp))
    (fun k hk hk' => absurd (Nat.lt_of_lt_of_le hk (by simpa using hk'))
      (Nat.lt_irrefl 0))
    (by decide) (by decide)

/-- **C1** counterexample to the claim as stated: with
`include=["tests/foo.py"]`, `exclude=["tests"]`, the file `tests/foo.py`
matches both an include and an exclude pattern, yet it is *not* recorded
under `skipped_files["pattern_matching"]` — its parent directory is pruned
first and the file is never evaluated. -/
theorem exclude_overrides_include_cex :
    PatternMatcher.isMatch "tests/foo.py"
        (ProjectLens.include_patterns ⟨["py"], ["tests/foo.py"], ["tests"], none⟩) = true
    ∧ PatternMatcher.isMatch "tests/foo.py"
        (ProjectLens.exclude_patterns ⟨["py"], ["tests/foo.py"], ["tests"], none⟩) = true
    ∧ WFForest [FSEntry.dir "tests" [FSEntry.file "foo.py" 10]]
    ∧ LocatesP [FSEntry.dir "tests" [FSEntry.file "foo.py" 10]] ["tests"]
        (FSEntry.file "foo.py" 10)
    ∧ "tests/foo.py"
        ∉ (scanProject ⟨["py"], ["tests/foo.py"], ["tests"], none⟩
            [FSEntry.dir "tests" [FSEntry.file "foo.py" 10]]).skipped_files_pattern_matching
    ∧ "tests/foo.py"
        ∉ (scanProject ⟨["py"], ["tests/foo.py"], ["tests"], none⟩
            [FSEntry.dir "tests" [FSEntry.file "foo.py" 10]]).scanned_files := by
  refine ⟨by decide, by decide, ⟨?_, by decide⟩, ?_, by decide, by decide⟩
  · intro e he
    simp at he
    subst he
    refine WFEntry.dir ⟨by decide, by decide⟩ ?_ (by decide)
    intro e' he'
    simp at he'
    subst he'
    exact WFEntry.file ⟨by decide, by decide⟩
  · exact LocatesP.deeper (List.mem_cons_self _ _)
      (LocatesP.here (List.mem_cons_self _ _))

/-- **C2** (amended): a directory whose relative path matches an exclude
pattern (user excludes merged with the built-in excluded directories) and
that is reached by the traversal (no ancestor pruned) is recorded in
`skipped_dirs`; and no recorded path of the scan lies strictly beneath it. -/
theorem excluded_dir_pruned (lens : ProjectLens) (cs : List FSEntry)
    (hwf : WFForest cs) :
    ∀ (ps : List String) (n : String) (dcs : List FSEntry),
      LocatesP cs ps (.dir n dcs) →
      ancestorsClear lens [] ps →
      dirExcluded lens (pathStr (ps ++ [n])) = true →
      pathStr (ps ++ [n]) ∈ (scanProject lens cs).skipped_dirs
      ∧ ∀ p ∈ allPaths (scanProject lens cs),
          ¬ strictDesc (pathStr (ps ++ [n])) p := by
  intro ps n dcs hloc hclear hexc
  have htrans := locates_transfer lens hloc [] hclear
  simp only [List.nil_append] at htrans
  have hentry : scanEntry lens ps (.dir n dcs) ProjectMetadata.empty
      = ⟨[], [pathStr (ps ++ [n])], [], []⟩ := by
    simp [scanEntry, hexc, ProjectMetadata.empty]
  rw [hentry] at htrans
  have hmem : pathStr (ps ++ [n]) ∈ (scanProject lens cs).skipped_dirs :=
    htrans.2.1 (by simp)
  refine ⟨hmem, ?_⟩
  obtain ⟨_, _, hdirs⟩ := scanList_inv lens [] cs hwf.1 hwf.2 (by simp)
  exact hdirs (pathStr (ps ++ [n])) hmem

/-- Witness for the amended C2: the excluded top-level `__pycache__`
directory is recorded in `skipped_dirs`. -/
theorem excluded_dir_pruned_witness :
    pathStr ([] ++ ["__pycache__"])
      ∈ (scanProject ⟨["py"], [], ["__pycache__"], none⟩
          [FSEntry.dir "__pycache__" [FSEntry.file "dummy.pyc" 9]]).skipped_dirs :=
  (excluded_dir_pruned ⟨["py"], [], ["__pycache__"], none⟩
      [FSEntry.dir "__pycache__" [FSEntry.file "dummy.pyc" 9]]
      ⟨by intro e he
          simp at he
          subst he
          refine WFEntry.dir ⟨by decide, by decide⟩ ?_ (by decide)
          intro e' he'
          simp at he'
          subst he'
          exact WFEntry.file ⟨by decide, by decide⟩,
        by decide⟩
      [] "__pycache__" [FSEntry.file "dummy.pyc" 9]
      (LocatesP.here (List.mem_cons_self _ _))
      (fun k hk hk' => absurd (Nat.lt_of_lt_of_le hk (by simpa using hk'))
        (Nat.lt_irrefl 0))
      (by decide)).1

/-- **C2** counterexample to the claim as stated: with
`exclude=["top", "sub"]`, the directory `top/sub` matches an exclude
pattern, yet it is *not* recorded in `skipped_dirs` — its parent `top` is
pruned first, so the traversal never reaches `top/sub`. -/
theorem excluded_dir_pruned_cex :
    dirExcluded ⟨["py"], [], ["top", "sub"], none⟩ "top/sub" = true
    ∧ WFForest [FSEntry.dir "top" [FSEntry.dir "sub" []]]
    ∧ LocatesP [FSEntry.dir "top" [FSEntry.dir "sub" []]] ["top"]
        (FSEntry.dir "sub" [])
    ∧ "top/sub"
        ∉ (scanProject ⟨["py"], [], ["top", "sub"], none⟩
            [FSEntry.dir "top" [FSEntry.dir "sub" []]]).skipped_dirs := by
  refine ⟨by decide, ⟨?_, by decide⟩, ?_, by decide⟩
  · intro e he
    simp at he
    subst he
    refine WFEntry.dir ⟨by decide, by decide⟩ ?_ (by decide)
    intro e' he'
    simp at he'
    subst he'
    exact WFEntry.dir ⟨by decide, by decide⟩ (by intro x hx; cases hx) (by decide)
  · exact LocatesP.deeper (List.mem_cons_self _ _)
      (LocatesP.here (List.mem_cons_self _ _))

/-- Witness for C9 on a concrete well-formed project tree. -/
theorem metadata_lists_disjoint_witness :
    (scanProject ⟨["py", "md"], [], ["test*"], some 10⟩
        [FSEntry.file "setup.py" 5,
         FSEntry.dir "tests" [FSEntry.file "test_main.py" 3],
         FSEntry.file "README.md" 20000]).scanned_files.Nodup
    ∧ (∀ p, ¬(p ∈ (scanProject ⟨["py", "md"], [], ["test*"], some 10⟩
          [FSEntry.file "setup.py" 5,
           FSEntry.dir "tests" [FSEntry.file "test_main.py" 3],
           FSEntry.file "README.md" 20000]).scanned_files
        ∧ p ∈ (scanProject ⟨["py", "md"], [], ["test*"], some 10⟩
          [FSEntry.file "setup.py" 5,
           FSEntry.dir "tests" [FSEntry.file "test_main.py" 3],
           FSEntry.file "README.md" 20000]).skipped_files_pattern_matching)) :=
  have hwf : WFForest [FSEntry.file "setup.py" 5,
      FSEntry.dir "tests" [FSEntry.file "test_main.py" 3],
      FSEntry.file "README.md" 20000] :=
    ⟨by intro e he
        simp at he
        rcases he with rfl | rfl | rfl
        · exact WFEntry.file ⟨by decide, by decide⟩
        · refine WFEntry.dir ⟨by decide, by decide⟩ ?_ (by decide)
          intro e' he'
          simp at he'
          subst he'
          exact WFEntry.file ⟨by decide, by decide⟩
        · exact WFEntry.file ⟨by decide, by decide⟩,
      by decide⟩
  ⟨(metadata_lists_disjoint ⟨["py", "md"], [], ["test*"], some 10⟩
      [FSEntry.file "setup.py" 5,
       FSEntry.dir "tests" [FSEntry.file "test_main.py" 3],
       FSEntry.file "README.md" 20000] hwf).1,
   (metadata_lists_disjoint ⟨["py", "md"], [], ["test*"], some 10⟩
      [FSEntry.file "setup.py" 5,
       FSEntry.dir "tests" [FSEntry.file "test_main.py" 3],
       FSEntry.file "README.md" 20000] hwf).2.2.2.1⟩

/-! ## Tree rendering is size-blind -/

/-- Visibility only consults the extension set and the two pattern sets. -/
theorem visibleChild_congr (lens₁ lens₂ : ProjectLens)
    (hext : lens₁.extensions = lens₂.extensions)
    (hinc : lens₁.include_patterns = lens₂.include_patterns)
    (hexc : lens₁.exclude_patterns = lens₂.exclude_patterns)
    (parent : List String) (e : FSEntry) :
    visibleChild lens₁ parent e = visibleChild lens₂ parent e := by
  cases e <;> simp [visibleChild, fileEligible, dirExcluded, hext, hinc, hexc]

mutual

/-- Rendering only consults the extension set and the two pattern sets
(sibling-list form). -/
theorem renderEntries_congr (lens₁ lens₂ : ProjectLens)
    (hext : lens₁.extensions = lens₂.extensions)
    (hinc : lens₁.include_patterns = lens₂.include_patterns)
    (hexc : lens₁.exclude_patterns = lens₂.exclude_patterns)
    (parent : List String) (pfx : String) (es : List FSEntry) :
    renderEntries lens₁ parent pfx es = renderEntries lens₂ parent pfx es := by
  cases es with
  | nil => simp [renderEntries]
  | cons e rest =>
    have hv : visibleChild lens₁ parent = visibleChild lens₂ parent :=
      funext (fun x => visibleChild_congr lens₁ lens₂ hext hinc hexc parent x)
    show (if visibleChild lens₁ parent e then
        renderEntry lens₁ parent pfx (!rest.any (visibleChild lens₁ parent)) e
          ++ renderEntries lens₁ parent pfx rest
      else renderEntries lens₁ parent pfx rest) =
      (if visibleChild lens₂ parent e then
        renderEntry lens₂ parent pfx (!rest.any (visibleChild lens₂ parent)) e
          ++ renderEntries lens₂ parent pfx rest
      else renderEntries lens₂ parent pfx rest)
    rw [hv]
    by_cases h : visibleChild lens₂ parent e = true
    · rw [if_pos h, if_pos h,
        renderEntry_congr lens₁ lens₂ hext hinc hexc parent pfx
          (!rest.any (visibleChild lens₂ parent)) e,
        renderEntries_congr lens₁ lens₂ hext hinc hexc parent pfx rest]
    · rw [if_neg h, if_neg h]
      exact renderEntries_congr lens₁ lens₂ hext hinc hexc parent pfx rest

/-- Rendering only consults the extension set and the two pattern sets
(single-entry form). -/
theorem renderEntry_congr (lens₁ lens₂ : ProjectLens)
    (hext : lens₁.extensions = lens₂.extensions)
    (hinc : lens₁.include_patterns = lens₂.include_patterns)
    (hexc : lens₁.exclude_patterns = lens₂.exclude_patterns)
    (parent : List String) (pfx : String) (isLast : Bool) (e : FSEntry) :
    renderEntry lens₁ parent pfx isLast e = renderEntry lens₂ parent pfx isLast e := by
  cases e with
  | file n s => rfl
  | dir n children =>
    show (pfx ++ (if isLast then "└── " else "├── ") ++ n)
        :: renderEntries lens₁ (parent ++ [n])
          (pfx ++ (if isLast then "    " else "│   ")) children = _
    rw [renderEntries_congr lens₁ lens₂ hext hinc hexc (parent ++ [n])
      (pfx ++ (if isLast then "    " else "│   ")) children]
    rfl

end

mutual

/-- Replace every file size in an entry (structure and names unchanged). -/
def resizeEntry (f : Nat → Nat) : FSEntry → FSEntry
  | .file n s => .file n (f s)
  | .dir n cs => .dir n (resizeList f cs)

/-- Replace every file size in a sibling list. -/
def resizeList (f : Nat → Nat) : List FSEntry → List FSEntry
  | [] => []
  | e :: rest => resizeEntry f e :: resizeList f rest

end

/-- Resizing preserves entry names. -/
theorem resizeEntry_name (f : Nat → Nat) (e : FSEntry) :
    (resizeEntry f e).name = e.name := by
  cases e <;> rfl

/-- Resizing preserves visibility. -/
theorem visibleChild_resize (lens : ProjectLens) (parent : List String)
    (f : Nat → Nat) (e : FSEntry) :
    visibleChild lens parent (resizeEntry f e) = visibleChild lens parent e := by
  cases e <;> rfl

/-- Resizing preserves the visibility test over a sibling list. -/
theorem any_visible_resize (lens : ProjectLens) (parent : List String)
    (f : Nat → Nat) (es : List FSEntry) :
    (resizeList f es).any (visibleChild lens parent)
      = es.any (visibleChild lens parent) := by
  induction es with
  | nil => rfl
  | cons e rest ih =>
    show ((resizeEntry f e :: resizeList f rest).any (visibleChild lens parent)) = _
    simp only [List.any_cons, visibleChild_resize, ih]

mutual

/-- Rendering ignores file sizes (sibling-list form). -/
theorem renderEntries_resize (lens : ProjectLens) (parent : List String)
    (pfx : String) (f : Nat → Nat) (es : List FSEntry) :
    renderEntries lens parent pfx (resizeList f es)
      = renderEntries lens parent pfx es := by
  cases es with
  | nil => rfl
  | cons e rest =>
    show (if visibleChild lens parent (resizeEntry f e) then
        renderEntry lens parent pfx
            (!(resizeList f rest).any (visibleChild lens parent)) (resizeEntry f e)
          ++ renderEntries lens parent pfx (resizeList f rest)
      else renderEntries lens parent pfx (resizeList f rest)) =
      (if visibleChild lens parent e then
        renderEntry lens parent pfx (!rest.any (visibleChild lens parent)) e
          ++ renderEntries lens parent pfx rest
      else renderEntries lens parent pfx rest)
    rw [visibleChild_resize, any_visible_resize,
      renderEntries_resize lens parent pfx f rest,
      renderEntry_resize lens parent pfx (!rest.any (visibleChild lens parent)) f e]

/-- Rendering ignores file sizes (single-entry form). -/
theorem renderEntry_resize (lens : ProjectLens) (parent : List String)
    (pfx : String) (isLast : Bool) (f : Nat → Nat) (e : FSEntry) :
    renderEntry lens parent pfx isLast (resizeEntry f e)
      = renderEntry lens parent pfx isLast e := by
  cases e with
  | file n s => rfl
  | dir n children =>
    show (pfx ++ (if isLast then "└── " else "├── ") ++ n)
        :: renderEntries lens (parent ++ [n])
          (pfx ++ (if isLast then "    " else "│   ")) (resizeList f children) = _
    rw [renderEntries_resize lens (parent ++ [n])
      (pfx ++ (if isLast then "    " else "│   ")) f children]
    rfl

end

/-- **C8.** The rendered tree is independent of `max_file_size`: two
configurations differing only in the size ceiling render identically; and
the tree is equally independent of the files' sizes themselves — a file
appears exactly when it passes the exclude/include/extension eligibility
rules, which never consult sizes. -/
theorem tree_independent_of_size (lens : ProjectLens) (m₁ m₂ : Option Nat)
    (rootName : String) (cs : List FSEntry) :
    generate_tree { lens with max_file_size := m₁ } rootName cs
      = generate_tree { lens with max_file_size := m₂ } rootName cs
    ∧ (∀ f : Nat → Nat,
        generate_tree lens rootName (resizeList f cs)
          = generate_tree lens rootName cs) := by
  constructor
  · show String.intercalate "\n" ((rootName ++ "/")
        :: renderEntries { lens with max_file_size := m₁ } [] "" cs) = _
    rw [renderEntries_congr { lens with max_file_size := m₁ }
      { lens with max_file_size := m₂ } rfl rfl rfl [] "" cs]
    rfl
  · intro f
    show String.intercalate "\n" ((rootName ++ "/")
        :: renderEntries lens [] "" (resizeList f cs)) = _
    rw [renderEntries_resize lens [] "" f cs]
    rfl

/-- **C10.** After every `export_project` call, the instance's `metadata`
attribute is exactly the scan of that invocation's walk — the configuration
is untouched, and whatever metadata the instance held before the call has no
influence on the exposed result. -/
theorem export_project_exposes_metadata :
    ∀ (st : LensState) (rootName : String) (cs : List FSEntry),
      (export_project st rootName cs).1.metadata = scanProject st.lens cs
      ∧ (export_project st rootName cs).1.lens = st.lens
      ∧ (∀ md₀ : ProjectMetadata,
          (export_project { st with metadata := md₀ } rootName cs).1.metadata
            = (export_project st rootName cs).1.metadata) := by
  intro st rootName cs
  exact ⟨rfl, rfl, fun md₀ => rfl⟩
